import Mathlib

/-!
Verification of the `const-arrayvec` crate: a fixed-capacity, inline-storage
vector (`ArrayVec<T, N>` in `src/lib.rs`) together with a range-removal
cursor (`Drain` in `src/drain.rs`).

Modelling conventions (shallow embedding):
* The backing buffer `items : [MaybeUninit<T>; N]` is a `List (Option α)`
  whose length is the capacity `N`; `none` is an uninitialized slot.
* A raw pointer read of slot `i` is `items.getD i none`; reading past the
  buffer yields `none` (the real code would read arbitrary memory there).
* A raw pointer write is `List.set`, which is a no-op past the end of the
  buffer (the real code would stomp unrelated memory there).
* `ptr::copy` (memmove) reads all of its source from the pre-call buffer
  and writes the destination range slot by slot: `copySlots`.
* A fallible operation returns its result paired with the post-call state;
  a Rust panic is a dedicated result constructor.
-/

/-- Buffer `acc` after writing, for each `j < n`, the value of slot `src + j`
of the original buffer `orig` into slot `dst + j`.  This is memmove
semantics: every read is from `orig`, so overlapping ranges behave as
`ptr::copy` does. -/
def copyWithin (orig : List (Option α)) (src dst : Nat) : Nat → List (Option α) → List (Option α)
  | 0, acc => acc
  | n + 1, acc => (copyWithin orig src dst n acc).set (dst + n) (orig.getD (src + n) none)

/-- Model of `ptr::copy(buf+src, buf+dst, n)` acting on the whole buffer. -/
def copySlots (items : List (Option α)) (src dst n : Nat) : List (Option α) :=
  copyWithin items src dst n items

/-- Model of `ptr::copy_nonoverlapping(other, buf+dst, other.len())`: write the
fully-initialized values of `other` into consecutive slots starting at `dst`. -/
def writeSeq (acc : List (Option α)) (dst : Nat) : List α → List (Option α)
  | [] => acc
  | x :: rest => writeSeq (acc.set dst (some x)) (dst + 1) rest

/-- Model of `struct CapacityError<T>(pub T)` from `src/lib.rs`. -/
structure CapacityError (α : Type) where
  val : α
  deriving Repr, DecidableEq

/-- Model of `ArrayVec<T, N>`: the backing buffer (one `Option α` per slot,
so the capacity is `items.length`) and the `length` field. -/
structure ArrayVec (α : Type) where
  items : List (Option α)
  length : Nat
  deriving Repr, DecidableEq

namespace ArrayVec

/-- Model of `ArrayVec::new::<T, N>()`: `N` uninitialized slots, length 0. -/
def new (α : Type) (N : Nat) : ArrayVec α := ⟨List.replicate N none, 0⟩

/-- Model of `ArrayVec::len`. -/
def len (v : ArrayVec α) : Nat := v.length

/-- Model of `ArrayVec::capacity` (the const parameter `N`). -/
def capacity (v : ArrayVec α) : Nat := v.items.length

/-- Model of `ArrayVec::is_empty`. -/
def is_empty (v : ArrayVec α) : Bool := v.len = 0

/-- Model of `ArrayVec::is_full`. -/
def is_full (v : ArrayVec α) : Bool := v.len = v.capacity

/-- Model of `ArrayVec::remaining_capacity`. -/
def remaining_capacity (v : ArrayVec α) : Nat := v.capacity - v.len

/-- Model of `ArrayVec::as_slice` (via `Deref`): the live elements, i.e. the
values of the first `length` slots.  In every state the real code can reach,
those slots are all initialized and `asSlice` has length `length`. -/
def asSlice (v : ArrayVec α) : List α := (v.items.take v.length).filterMap id

/-- Model of `ArrayVec::push_unchecked`: write `item` to slot `length`
and increment `length` (caller guarantees the vector is not full). -/
def push_unchecked (v : ArrayVec α) (item : α) : ArrayVec α :=
  ⟨v.items.set v.length (some item), v.length + 1⟩

/-- Model of `ArrayVec::try_push`. -/
def tryPush (v : ArrayVec α) (item : α) :
    Except (CapacityError α) Unit × ArrayVec α :=
  if v.is_full then (Except.error ⟨item⟩, v)
  else (Except.ok (), v.push_unchecked item)

/-- Model of `ArrayVec::pop`.  The outer `Option` is Rust's return value
(`none` iff the vector is empty); the inner `Option α` is the raw
`ptr::read` of slot `length - 1`. -/
def pop (v : ArrayVec α) : Option (Option α) × ArrayVec α :=
  if v.is_empty then (none, v)
  else (some (v.items.getD (v.length - 1) none), ⟨v.items, v.length - 1⟩)

/-- Model of `ArrayVec::truncate`.  The second component is the list of raw
slot values destroyed by `ptr::drop_in_place(tail)`, in index order; the
buffer itself is untouched (dropping does not zero memory). -/
def truncate (v : ArrayVec α) (new_length : Nat) : ArrayVec α × List (Option α) :=
  if new_length < v.length then
    (⟨v.items, new_length⟩, (v.items.drop new_length).take (v.length - new_length))
  else (v, [])

/-- Model of `ArrayVec::clear`. -/
def clear (v : ArrayVec α) : ArrayVec α × List (Option α) := v.truncate 0

/-- Result of `ArrayVec::try_insert`: the `out_of_bounds!` panic (which
reports the offending index and the current length), a capacity error
carrying the rejected item, or success. -/
inductive InsertResult (α : Type) where
  | panicked (index len : Nat)
  | err (e : CapacityError α)
  | ok
  deriving Repr, DecidableEq

/-- Model of `ArrayVec::try_insert`: bounds check first (panic), then the
capacity check, then `ptr::copy` one slot to the right and `ptr::write`. -/
def tryInsert (v : ArrayVec α) (index : Nat) (item : α) :
    InsertResult α × ArrayVec α :=
  let l := v.len
  if index > l then (InsertResult.panicked index l, v)
  else if v.is_full then (InsertResult.err ⟨item⟩, v)
  else (InsertResult.ok,
    ⟨(copySlots v.items index (index + 1) (l - index)).set index (some item), l + 1⟩)

/-- Model of `ArrayVec::try_extend_from_slice` (element type `Copy`). -/
def tryExtendFromSlice (v : ArrayVec α) (other : List α) :
    Except (CapacityError Unit) Unit × ArrayVec α :=
  if v.remaining_capacity < other.length then (Except.error ⟨()⟩, v)
  else (Except.ok (), ⟨writeSeq v.items v.length other, v.length + other.length⟩)

/-- Model of `impl From<[T; N]> for ArrayVec<T, N>`: move all `N` elements
into the buffer and set the length to `N`. -/
def ofArray (l : List α) : ArrayVec α := ⟨l.map some, l.length⟩

/-- Model of `impl PartialEq<ArrayVec<T, M>> for ArrayVec<T, N>`:
`self.as_slice() == other.as_slice()`.  The two capacities are independent. -/
def beq [BEq α] (v w : ArrayVec α) : Bool := asSlice v == asSlice w

/-- Model of `impl Hash for ArrayVec<T, N>`: the hasher consumes exactly
`self.as_slice()`, so the hash is `h` applied to the live elements, for the
hash function `h` induced by the hasher. -/
def hashWith (h : List α → UInt64) (v : ArrayVec α) : UInt64 := h (asSlice v)

/-- Well-formedness of a vector state, as maintained by the real code:
the length never exceeds the capacity and the live slots are initialized. -/
def WF (v : ArrayVec α) : Prop :=
  v.length ≤ v.items.length ∧ ∀ x ∈ v.items.take v.length, x.isSome

instance (v : ArrayVec α) : Decidable (WF v) := by unfold WF; infer_instance

end ArrayVec

/-- Model of `Drain<'a, T, N>` from `src/drain.rs`.  `inner` is the borrowed
vector's state; `head` and `tail` are the two cursor pointers, as slot
indices into the buffer. -/
structure Drain (α : Type) where
  inner : ArrayVec α
  drain_range_start : Nat
  tail_start : Nat
  tail_length : Nat
  head : Nat
  tail : Nat
  deriving Repr, DecidableEq

namespace Drain

/-- Model of `Drain::with_range(vector, start..end)`.  Note the source
computes `tail_length = vector.len() - (range.end - range.start)`. -/
def with_range (v : ArrayVec α) (s e : Nat) : Drain α :=
  { inner := ⟨v.items, s⟩
    drain_range_start := s
    tail_start := e
    tail_length := v.len - (e - s)
    head := s
    tail := e }

/-- Model of `Iterator::next` for `Drain`.  The outer `Option` is the
iterator protocol; the inner `Option α` is the raw read at `head`. -/
def next (d : Drain α) : Option (Option α) × Drain α :=
  if d.head = d.tail then (none, d)
  else (some (d.inner.items.getD d.head none), { d with head := d.head + 1 })

/-- Model of `DoubleEndedIterator::next_back` for `Drain`. -/
def next_back (d : Drain α) : Option (Option α) × Drain α :=
  if d.head = d.tail then (none, d)
  else (some (d.inner.items.getD (d.tail - 1) none), { d with tail := d.tail - 1 })

/-- Model of `ExactSizeIterator::len` for `Drain`: the pointer difference
`tail - head` divided by the element size, i.e. the index distance. -/
def len (d : Drain α) : Nat := d.tail - d.head

/-- Model of the `while let Some(item) = self.next()` loop in `Drain::drop`,
with fuel (the loop runs `tail - head` times in every reachable state).
Returns the raw values destroyed, in the order they were read. -/
def consume : Nat → Drain α → List (Option α) × Drain α
  | 0, d => ([], d)
  | fuel + 1, d =>
    match d.next with
    | (none, d1) => ([], d1)
    | (some x, d1) =>
      let r := consume fuel d1
      (x :: r.1, r.2)

/-- Model of `Drop for Drain`: destroy the unyielded elements, then (unless
`tail_length == 0`) `ptr::copy` the `tail_length` slots at `tail_start`
back to `drain_range_start` and set the vector's length to
`drain_range_start + tail_length`.  Returns the vector's final state and
the raw values destroyed by the loop. -/
def drop (d : Drain α) : ArrayVec α × List (Option α) :=
  let r := consume (d.tail - d.head) d
  let d1 := r.2
  if d1.tail_length = 0 then (d1.inner, r.1)
  else
    (⟨copySlots d1.inner.items d1.tail_start d1.drain_range_start d1.tail_length,
      d1.drain_range_start + d1.tail_length⟩, r.1)

/-- Number of successful (`Some`-returning) iterator calls when the drain is
driven by the given schedule: `true` is a `next` call, `false` a
`next_back` call. -/
def runSteps (d : Drain α) : List Bool → Nat
  | [] => 0
  | b :: rest =>
    (if (if b then d.next else d.next_back).1.isSome then 1 else 0) +
      runSteps (if b then d.next else d.next_back).2 rest

end Drain

/-! ### General list lemmas used to reason about the slot buffer -/

theorem list_getElem?_drop (l : List α) (n i : Nat) : (l.drop n)[i]? = l[n + i]? := by
  induction n generalizing l with
  | zero => simp
  | succ n ih =>
    cases l with
    | nil => simp
    | cons x xs =>
      rw [List.drop_succ_cons, ih xs]
      rw [show n + 1 + i = n + i + 1 by omega]
      exact List.getElem?_cons_succ.symm

theorem list_getElem?_take (l : List α) (n i : Nat) :
    (l.take n)[i]? = if i < n then l[i]? else none := by
  by_cases h : i < n
  · simp [List.getElem?_take_of_lt h, h]
  · rw [if_neg h, List.getElem?_len_le]
    rw [List.length_take]
    omega

theorem list_take_take (l : List α) (m n : Nat) :
    (l.take n).take m = l.take (min m n) := by
  apply List.ext_getElem?
  intro i
  simp only [list_getElem?_take]
  split_ifs <;> first | rfl | omega

theorem list_drop_take (l : List α) (n m : Nat) :
    (l.take m).drop n = (l.drop n).take (m - n) := by
  apply List.ext_getElem?
  intro i
  simp only [list_getElem?_drop, list_getElem?_take]
  split_ifs <;> first | rfl | omega

theorem list_filterMap_map_some (l : List α) : (l.map some).filterMap id = l := by
  induction l with
  | nil => rfl
  | cons x xs ih => simp [ih]

theorem list_allSome_eq (l : List (Option α)) (h : ∀ x ∈ l, x.isSome) :
    l = (l.filterMap id).map some := by
  induction l with
  | nil => rfl
  | cons x xs ih =>
    obtain ⟨a, rfl⟩ := Option.isSome_iff_exists.mp (h x (List.mem_cons_self x xs))
    have ih2 := ih fun y hy => h y (List.mem_cons_of_mem _ hy)
    calc some a :: xs = some a :: (xs.filterMap id).map some := by rw [← ih2]
      _ = ((some a :: xs).filterMap id).map some := by simp

theorem list_getElem?_of_getD (l : List α) (k : Nat) (d : α) (hk : k < l.length) :
    l[k]? = some (l.getD k d) := by
  rw [List.getD_eq_getElem?_getD, List.getElem?_eq_getElem hk]
  rfl

theorem copyWithin_length (orig acc : List (Option α)) (src dst n : Nat) :
    (copyWithin orig src dst n acc).length = acc.length := by
  induction n with
  | zero => rfl
  | succ n ih => simp [copyWithin, ih]

theorem copyWithin_getElem? (orig acc : List (Option α)) (src dst n i : Nat) :
    (copyWithin orig src dst n acc)[i]? =
      if dst ≤ i ∧ i < dst + n ∧ i < acc.length then some (orig.getD (src + (i - dst)) none)
      else acc[i]? := by
  induction n with
  | zero =>
    rw [if_neg]
    · rfl
    · omega
  | succ n ih =>
    simp only [copyWithin, List.getElem?_set, copyWithin_length, ih]
    by_cases hij : dst + n = i
    · subst hij
      by_cases hlen : dst + n < acc.length
      · rw [if_pos rfl, if_pos hlen, if_pos ⟨by omega, by omega, hlen⟩]
        congr 2
        omega
      · rw [if_pos rfl, if_neg hlen,
          if_neg (by omega : ¬(dst ≤ dst + n ∧ dst + n < dst + (n + 1) ∧ dst + n < acc.length))]
        exact (List.getElem?_len_le (by omega)).symm
    · rw [if_neg hij]
      by_cases hin : dst ≤ i ∧ i < dst + n ∧ i < acc.length
      · rw [if_pos hin, if_pos ⟨hin.1, by omega, hin.2.2⟩]
      · rw [if_neg hin, if_neg (by omega)]

/-! ### Bridge lemmas between the slot buffer and the live-element view -/

namespace ArrayVec

theorem liveSlots_eq {α : Type} {v : ArrayVec α} (h : WF v) :
    v.items.take v.length = (asSlice v).map some :=
  list_allSome_eq _ h.2

theorem length_asSlice {α : Type} {v : ArrayVec α} (h : WF v) :
    (asSlice v).length = v.length := by
  have h1 := congrArg List.length (liveSlots_eq h)
  have hcap := h.1
  simp only [List.length_take, List.length_map] at h1
  omega

theorem items_getElem? {α : Type} {v : ArrayVec α} (h : WF v) {i : Nat}
    (hi : i < v.length) :
    v.items[i]? = ((asSlice v)[i]?).map some := by
  have h1 : (v.items.take v.length)[i]? = ((asSlice v).map some)[i]? := by
    rw [liveSlots_eq h]
  rw [list_getElem?_take, if_pos hi, List.getElem?_map] at h1
  exact h1

theorem getD_items {α : Type} {v : ArrayVec α} (h : WF v) {i : Nat}
    (hi : i < v.length) :
    v.items.getD i none = (asSlice v)[i]? := by
  have h2 : i < (asSlice v).length := by rw [length_asSlice h]; exact hi
  rw [List.getD_eq_getElem?_getD, items_getElem? h hi, List.getElem?_eq_getElem h2]
  rfl

theorem asSlice_shortened {α : Type} {v : ArrayVec α} (h : WF v) {m : Nat}
    (hm : m ≤ v.length) :
    asSlice ⟨v.items, m⟩ = (asSlice v).take m := by
  show (v.items.take m).filterMap id = _
  have h1 : v.items.take m = (v.items.take v.length).take m := by
    rw [list_take_take]
    congr 1
    omega
  rw [h1, liveSlots_eq h, ← List.map_take, list_filterMap_map_some]

end ArrayVec

/-! ### Concrete states used as witnesses -/

/-- Concrete full vector of capacity 2 (built by `From<[T; 2]>`). -/
def w2 : ArrayVec Nat := ArrayVec.ofArray [1, 2]

/-- Concrete vector of capacity 3 holding the live elements `[1, 2]`. -/
def w32 : ArrayVec Nat := ⟨[some 1, some 2, none], 2⟩

/-! ### Claim theorems -/

/-- C4: on a full vector, `try_push(x)` returns a capacity error whose
payload is exactly `x`, and the vector's length, live contents and capacity
are unchanged. -/
theorem tryPush_full_spec {α : Type} (v : ArrayVec α) (x : α)
    (hf : v.is_full = true) :
    (v.tryPush x).1 = Except.error ⟨x⟩ ∧
    (v.tryPush x).2.length = v.length ∧
    ArrayVec.asSlice (v.tryPush x).2 = ArrayVec.asSlice v ∧
    (v.tryPush x).2.capacity = v.capacity := by
  simp [ArrayVec.tryPush, hf]

/-- Witness for C4 at the full vector `w2`. -/
theorem tryPush_full_spec_witness :
    (w2.tryPush 9).1 = Except.error ⟨9⟩ ∧
    (w2.tryPush 9).2.length = w2.length ∧
    ArrayVec.asSlice (w2.tryPush 9).2 = ArrayVec.asSlice w2 ∧
    (w2.tryPush 9).2.capacity = w2.capacity :=
  tryPush_full_spec w2 9 (by decide)

/-- C10: on a full vector, `try_insert(index, item)` with `index > len`
takes the `out_of_bounds!` panic path (reporting the offending index and the
current length) rather than returning the capacity error: the bounds check
precedes the capacity check. -/
theorem tryInsert_bounds_precedence {α : Type} (v : ArrayVec α) (i : Nat) (x : α)
    (_hf : v.is_full = true) (hi : v.length < i) :
    (v.tryInsert i x).1 = ArrayVec.InsertResult.panicked i v.length ∧
    (v.tryInsert i x).2 = v := by
  simp [ArrayVec.tryInsert, ArrayVec.len, hi]

/-- Witness for C10 at the full vector `w2` and index 3. -/
theorem tryInsert_bounds_precedence_witness :
    (w2.tryInsert 3 9).1 = ArrayVec.InsertResult.panicked 3 w2.length ∧
    (w2.tryInsert 3 9).2 = w2 :=
  tryInsert_bounds_precedence w2 3 9 (by decide) (by decide)

/-- C3 counterexample: `try_extend_from_slice` does NOT carry the rejected
slice data in its error: the error type's payload is the unit value, so two
failing calls with different slices return identical errors. -/
theorem tryExtend_payload_counterexample :
    (w2.tryExtendFromSlice [7]).1 = (w2.tryExtendFromSlice [8]).1 ∧
    (w2.tryExtendFromSlice [7]).1 = Except.error ⟨()⟩ ∧
    ([7] : List Nat) ≠ [8] :=
  ⟨rfl, rfl, by decide⟩

/-- C3 (amended): a failed `try_push` or `try_insert` returns an error
carrying the rejected item and leaves the vector unchanged; a failed
`try_extend_from_slice` leaves the vector unchanged but its error carries
only a unit payload, not the offered slice's data. -/
theorem error_payload_spec {α : Type} :
    (∀ (v : ArrayVec α) (x : α), v.is_full = true →
      (v.tryPush x).1 = Except.error ⟨x⟩ ∧ (v.tryPush x).2 = v) ∧
    (∀ (v : ArrayVec α) (i : Nat) (x : α), i ≤ v.length → v.is_full = true →
      (v.tryInsert i x).1 = ArrayVec.InsertResult.err ⟨x⟩ ∧ (v.tryInsert i x).2 = v) ∧
    (∀ (v : ArrayVec α) (other : List α), v.remaining_capacity < other.length →
      (v.tryExtendFromSlice other).1 = Except.error ⟨()⟩ ∧
      (v.tryExtendFromSlice other).2 = v) := by
  refine ⟨?_, ?_, ?_⟩
  · intro v x hf
    simp [ArrayVec.tryPush, hf]
  · intro v i x hi hf
    have h1 : ¬ ArrayVec.len v < i := by simp [ArrayVec.len]; omega
    simp [ArrayVec.tryInsert, h1, hf]
  · intro v other hlt
    simp [ArrayVec.tryExtendFromSlice, hlt]

/-- Witness for C3's amended statement at concrete failing calls. -/
theorem error_payload_spec_witness :
    (w2.tryPush 9).1 = Except.error ⟨9⟩ ∧
    (w2.tryInsert 0 9).1 = ArrayVec.InsertResult.err ⟨9⟩ ∧
    (w2.tryExtendFromSlice [7, 8]).1 = Except.error ⟨()⟩ :=
  ⟨((error_payload_spec (α := Nat)).1 w2 9 (by decide)).1,
   ((error_payload_spec (α := Nat)).2.1 w2 0 9 (by decide) (by decide)).1,
   ((error_payload_spec (α := Nat)).2.2 w2 [7, 8] (by decide)).1⟩

/-- C8: equality of vectors (possibly of different capacities) is decided
solely by the live-element sequence, and the hash is a function of that same
sequence, so equal vectors hash alike under any hasher. -/
theorem eq_hash_spec {α : Type} [BEq α] [LawfulBEq α] (v w : ArrayVec α)
    (h : List α → UInt64) :
    (ArrayVec.asSlice v = ArrayVec.asSlice w → ArrayVec.beq v w = true) ∧
    (ArrayVec.beq v w = true → ArrayVec.hashWith h v = ArrayVec.hashWith h w) := by
  constructor
  · intro he
    simp [ArrayVec.beq, he]
  · intro hb
    have he : ArrayVec.asSlice v = ArrayVec.asSlice w := by
      simpa [ArrayVec.beq] using hb
    simp [ArrayVec.hashWith, he]

/-- Witness for C8: `w2` (capacity 2) and `w32` (capacity 3) have the same
live contents, compare equal, and hash alike. -/
theorem eq_hash_spec_witness :
    ArrayVec.beq w2 w32 = true ∧
    ArrayVec.hashWith (fun l => UInt64.ofNat l.length) w2 =
      ArrayVec.hashWith (fun l => UInt64.ofNat l.length) w32 :=
  ⟨(eq_hash_spec w2 w32 (fun l => UInt64.ofNat l.length)).1 (by decide),
   (eq_hash_spec w2 w32 (fun l => UInt64.ofNat l.length)).2
     ((eq_hash_spec w2 w32 (fun l => UInt64.ofNat l.length)).1 (by decide))⟩

/-- C6: `pop` on a vector of length `k > 0` returns the element previously
at index `k - 1` and leaves the first `k - 1` elements with length `k - 1`;
`pop` on an empty vector returns nothing and leaves the vector unchanged. -/
theorem pop_spec {α : Type} (v : ArrayVec α) (h : ArrayVec.WF v) :
    (0 < v.length →
      (v.pop).1 = some ((ArrayVec.asSlice v)[v.length - 1]?) ∧
      (v.pop).2.length = v.length - 1 ∧
      ArrayVec.asSlice (v.pop).2 = (ArrayVec.asSlice v).take (v.length - 1)) ∧
    (v.length = 0 → v.pop = (none, v)) := by
  constructor
  · intro hk
    have hne : ¬ v.is_empty = true := by
      simp [ArrayVec.is_empty, ArrayVec.len]
      omega
    unfold ArrayVec.pop
    rw [if_neg hne]
    refine ⟨?_, rfl, ?_⟩
    · rw [ArrayVec.getD_items h (by omega)]
    · exact ArrayVec.asSlice_shortened h (by omega)
  · intro hk
    unfold ArrayVec.pop
    rw [if_pos]
    simp [ArrayVec.is_empty, ArrayVec.len, hk]

/-- Witness for C6 at the vector `w2 = [1, 2]`. -/
theorem pop_spec_witness :
    (w2.pop).1 = some ((ArrayVec.asSlice w2)[w2.length - 1]?) ∧
    ArrayVec.asSlice (w2.pop).2 = (ArrayVec.asSlice w2).take (w2.length - 1) :=
  ⟨((pop_spec w2 (by decide)).1 (by decide)).1,
   ((pop_spec w2 (by decide)).1 (by decide)).2.2⟩

/-- C7: `truncate(n)` with `n < len` keeps the first `n` elements, sets the
length to `n` and destroys exactly the elements at indices `[n, len)` in
index order; with `n ≥ len` it leaves the vector entirely unchanged.
`clear` is `truncate(0)`. -/
theorem truncate_spec {α : Type} (v : ArrayVec α) (n : Nat) (h : ArrayVec.WF v) :
    (n < v.length →
      (v.truncate n).1.length = n ∧
      ArrayVec.asSlice (v.truncate n).1 = (ArrayVec.asSlice v).take n ∧
      (v.truncate n).2 = ((ArrayVec.asSlice v).drop n).map some) ∧
    (v.length ≤ n → v.truncate n = (v, [])) ∧
    v.clear = v.truncate 0 := by
  refine ⟨?_, ?_, rfl⟩
  · intro hn
    unfold ArrayVec.truncate
    rw [if_pos hn]
    refine ⟨rfl, ArrayVec.asSlice_shortened h (by omega), ?_⟩
    show (v.items.drop n).take (v.length - n) = _
    rw [← list_drop_take v.items n v.length, ArrayVec.liveSlots_eq h]
    exact (List.map_drop some (ArrayVec.asSlice v) n).symm
  · intro hn
    unfold ArrayVec.truncate
    rw [if_neg (by omega)]

/-- Witness for C7 at the vector `w2 = [1, 2]` and `n = 1`. -/
theorem truncate_spec_witness :
    ArrayVec.asSlice (w2.truncate 1).1 = (ArrayVec.asSlice w2).take 1 ∧
    (w2.truncate 1).2 = ((ArrayVec.asSlice w2).drop 1).map some ∧
    w2.truncate 2 = (w2, []) :=
  ⟨((truncate_spec w2 1 (by decide)).1 (by decide)).2.1,
   ((truncate_spec w2 1 (by decide)).1 (by decide)).2.2,
   (truncate_spec w2 2 (by decide)).2.1 (by decide)⟩

/-- C5: with `i ≤ len` and spare capacity, `try_insert(i, x)` succeeds; the
new live sequence is the old one with `x` inserted at index `i` (elements
formerly at `[i, len)` shift to `[i+1, len+1)` in order), the length grows
by one, and reading index `i` yields `x`.  `insert` delegates to this path. -/
theorem tryInsert_spec {α : Type} (v : ArrayVec α) (i : Nat) (x : α)
    (h : ArrayVec.WF v) (hi : i ≤ v.length) (hcap : v.length < v.capacity) :
    (v.tryInsert i x).1 = ArrayVec.InsertResult.ok ∧
    (v.tryInsert i x).2.length = v.length + 1 ∧
    ArrayVec.asSlice (v.tryInsert i x).2 =
      (ArrayVec.asSlice v).take i ++ x :: (ArrayVec.asSlice v).drop i ∧
    (ArrayVec.asSlice (v.tryInsert i x).2)[i]? = some x := by
  have hN : v.length < v.items.length := hcap
  have hnf : ¬ ArrayVec.is_full v = true := by
    simp [ArrayVec.is_full, ArrayVec.len, ArrayVec.capacity]
    omega
  have hred : v.tryInsert i x = (ArrayVec.InsertResult.ok,
      ⟨(copySlots v.items i (i + 1) (v.length - i)).set i (some x), v.length + 1⟩) := by
    unfold ArrayVec.tryInsert
    simp only [ArrayVec.len]
    rw [if_neg (by omega : ¬ i > v.length), if_neg hnf]
  have hlc : (copySlots v.items i (i + 1) (v.length - i)).length = v.items.length :=
    copyWithin_length v.items v.items i (i + 1) (v.length - i)
  have hlt : (v.items.take i).length = i := by
    rw [List.length_take]
    omega
  have hs : ((copySlots v.items i (i + 1) (v.length - i)).set i (some x)).take (v.length + 1)
      = (v.items.take i) ++ some x :: ((v.items.take v.length).drop i) := by
    unfold copySlots
    apply List.ext_getElem?
    intro j
    rw [list_getElem?_take, List.getElem?_append, hlt]
    rcases Nat.lt_trichotomy j i with hj | hj | hj
    · rw [if_pos (by omega : j < v.length + 1), if_pos hj,
        List.getElem?_set_ne (by omega : i ≠ j),
        copyWithin_getElem?, if_neg (by omega), list_getElem?_take, if_pos hj]
    · subst hj
      rw [if_pos (by omega : j < v.length + 1), List.getElem?_set, if_pos rfl,
        copyWithin_length, if_pos (by omega : j < v.items.length),
        if_neg (by omega : ¬ j < j)]
      simp
    · rw [if_neg (by omega : ¬ j < i),
        List.getElem?_set_ne (by omega : i ≠ j), copyWithin_getElem?]
      by_cases hj2 : j ≤ v.length
      · rw [if_pos (by omega : j < v.length + 1),
          if_pos (⟨by omega, by omega, by omega⟩ :
            i + 1 ≤ j ∧ j < i + 1 + (v.length - i) ∧ j < v.items.length),
          show i + (j - (i + 1)) = j - 1 by omega,
          ← list_getElem?_of_getD v.items (j - 1) none (by omega),
          show j - i = (j - i - 1) + 1 by omega, List.getElem?_cons_succ,
          list_getElem?_drop, show i + (j - i - 1) = j - 1 by omega,
          list_getElem?_take, if_pos (by omega : j - 1 < v.length)]
      · rw [if_neg (by omega : ¬ j < v.length + 1),
          show j - i = (j - i - 1) + 1 by omega, List.getElem?_cons_succ,
          list_getElem?_drop, list_getElem?_take,
          if_neg (by omega : ¬ i + (j - i - 1) < v.length)]
  have h2 : v.items.take i = ((ArrayVec.asSlice v).take i).map some := by
    have h2a : v.items.take i = (v.items.take v.length).take i := by
      rw [list_take_take]
      congr 1
      omega
    rw [h2a, ArrayVec.liveSlots_eq h, List.map_take]
  have h3 : (v.items.take v.length).drop i = ((ArrayVec.asSlice v).drop i).map some := by
    rw [ArrayVec.liveSlots_eq h, List.map_drop]
  have h4 : ArrayVec.asSlice (v.tryInsert i x).2 =
      (ArrayVec.asSlice v).take i ++ x :: (ArrayVec.asSlice v).drop i := by
    rw [hred]
    show (((copySlots v.items i (i + 1) (v.length - i)).set i (some x)).take
      (v.length + 1)).filterMap id = _
    rw [hs, h2, h3,
      show (((ArrayVec.asSlice v).take i).map some) ++
          some x :: (((ArrayVec.asSlice v).drop i).map some)
        = (((ArrayVec.asSlice v).take i) ++ x :: ((ArrayVec.asSlice v).drop i)).map some by
      simp]
    exact list_filterMap_map_some _
  have hti : ((ArrayVec.asSlice v).take i).length = i := by
    rw [List.length_take, ArrayVec.length_asSlice h]
    omega
  refine ⟨by rw [hred], by rw [hred], h4, ?_⟩
  rw [h4, List.getElem?_append_right (Nat.le_of_eq hti), hti]
  simp

/-- Witness for C5 at the vector `w32 = [1, 2]` (capacity 3), inserting 9
at index 1. -/
theorem tryInsert_spec_witness :
    (w32.tryInsert 1 9).1 = ArrayVec.InsertResult.ok ∧
    ArrayVec.asSlice (w32.tryInsert 1 9).2 =
      (ArrayVec.asSlice w32).take 1 ++ 9 :: (ArrayVec.asSlice w32).drop 1 ∧
    (ArrayVec.asSlice (w32.tryInsert 1 9).2)[1]? = some 9 :=
  ⟨(tryInsert_spec w32 1 9 (by decide) (by decide) (by decide)).1,
   (tryInsert_spec w32 1 9 (by decide) (by decide) (by decide)).2.2.1,
   (tryInsert_spec w32 1 9 (by decide) (by decide) (by decide)).2.2.2⟩

/-- C9: whenever the drain cursor's head is not past its tail (true in every
reachable state), `len()` is the index distance between the cursors, and for
any interleaving of `next`/`next_back` calls exactly `min calls len` of them
succeed: after `len` successes every further call returns nothing. -/
theorem drain_len_spec {α : Type} (d : Drain α) (hd : d.head ≤ d.tail) :
    Drain.len d = d.tail - d.head ∧
    (∀ (v : ArrayVec α) (s e : Nat), s ≤ e →
      (Drain.with_range v s e).head ≤ (Drain.with_range v s e).tail) ∧
    (d.next).2.head ≤ (d.next).2.tail ∧
    (d.next_back).2.head ≤ (d.next_back).2.tail ∧
    ∀ steps : List Bool, Drain.runSteps d steps = min steps.length (Drain.len d) := by
  refine ⟨rfl, fun v s e hse => hse, ?_, ?_, ?_⟩
  · by_cases he : d.head = d.tail
    · simp [Drain.next, he]
    · simp [Drain.next, he]
      omega
  · by_cases he : d.head = d.tail
    · simp [Drain.next_back, he]
    · simp [Drain.next_back, he]
      omega
  intro steps
  induction steps generalizing d with
  | nil => simp [Drain.runSteps]
  | cons b rest ih =>
    by_cases he : d.head = d.tail
    · have hnext : (if b then d.next else d.next_back) = (none, d) := by
        cases b <;> simp [Drain.next, Drain.next_back, he]
      have hih := ih d hd
      have h1 : Drain.runSteps d (b :: rest) = 0 + Drain.runSteps d rest := by
        simp [Drain.runSteps, hnext]
      rw [h1, hih]
      simp only [Drain.len, List.length_cons]
      omega
    · cases b with
      | true =>
        have hnext : d.next =
            (some (d.inner.items.getD d.head none), { d with head := d.head + 1 }) := by
          simp [Drain.next, he]
        have hih := ih { d with head := d.head + 1 } (by show d.head + 1 ≤ d.tail; omega)
        have h1 : Drain.runSteps d (true :: rest) =
            1 + Drain.runSteps { d with head := d.head + 1 } rest := by
          simp [Drain.runSteps, hnext]
        rw [h1, hih]
        simp only [Drain.len, List.length_cons]
        omega
      | false =>
        have hnext : d.next_back =
            (some (d.inner.items.getD (d.tail - 1) none), { d with tail := d.tail - 1 }) := by
          simp [Drain.next_back, he]
        have hih := ih { d with tail := d.tail - 1 } (by show d.head ≤ d.tail - 1; omega)
        have h1 : Drain.runSteps d (false :: rest) =
            1 + Drain.runSteps { d with tail := d.tail - 1 } rest := by
          simp [Drain.runSteps, hnext]
        rw [h1, hih]
        simp only [Drain.len, List.length_cons]
        omega

/-- Witness for C9 at a drain of `[1, 3)` over `[0, 1, 2, 3]`, driven by the
mixed schedule front, back, front. -/
theorem drain_len_spec_witness :
    Drain.len (Drain.with_range (ArrayVec.ofArray [0, 1, 2, 3]) 1 3) =
      (Drain.with_range (ArrayVec.ofArray [0, 1, 2, 3]) 1 3).tail -
      (Drain.with_range (ArrayVec.ofArray [0, 1, 2, 3]) 1 3).head ∧
    Drain.runSteps (Drain.with_range (ArrayVec.ofArray [0, 1, 2, 3]) 1 3)
      [true, false, true] =
      min ([true, false, true] : List Bool).length
        (Drain.len (Drain.with_range (ArrayVec.ofArray [0, 1, 2, 3]) 1 3)) :=
  ⟨(drain_len_spec (Drain.with_range (ArrayVec.ofArray [0, 1, 2, 3]) 1 3) (by decide)).1,
   (drain_len_spec (Drain.with_range (ArrayVec.ofArray [0, 1, 2, 3]) 1 3) (by decide)).2.2.2.2
     [true, false, true]⟩

/-- Concrete five-element vector used for the drain bug evaluations. -/
def w5 : ArrayVec Nat := ArrayVec.ofArray [0, 1, 2, 3, 4]

/-- C1 (bug evaluation): draining `[1, 3)` from `[0, 1, 2, 3, 4]` and
dropping the cursor immediately destroys the drained raw values `1, 2` but
leaves the vector with `length = 4`, not `5 - (3 - 1) = 3`, and in a state
that violates the live-slot invariant: `with_range` sets
`tail_length = len - (end - start) = 3` instead of `len - end = 2`, so the
compaction copies one slot past the initialized region and the restored
length is off by `start`. -/
theorem drain_drop_bug_eval :
    (Drain.drop (Drain.with_range w5 1 3)).1.length = 4 ∧
    (Drain.drop (Drain.with_range w5 1 3)).2 = [some 1, some 2] ∧
    (Drain.drop (Drain.with_range w5 1 3)).1.length ≠ w5.length - (3 - 1) ∧
    ¬ ArrayVec.WF (Drain.drop (Drain.with_range w5 1 3)).1 := by
  refine ⟨rfl, rfl, by decide, by decide⟩

/-- C2 (bug evaluation): draining `[2, 3)` from the same vector and dropping
the cursor sets the vector's length to `6`, strictly greater than the
capacity `5`, violating the `length ≤ N` invariant (and the debug assertion
inside `set_len`).  Every earlier state of the lifecycle still satisfies the
invariant; the final `set_len` in `Drain::drop` breaks it. -/
theorem drain_drop_length_overflow :
    (Drain.drop (Drain.with_range w5 2 3)).1.length = 6 ∧
    (Drain.drop (Drain.with_range w5 2 3)).1.capacity = 5 ∧
    ¬ (Drain.drop (Drain.with_range w5 2 3)).1.length ≤
      (Drain.drop (Drain.with_range w5 2 3)).1.capacity := by
  refine ⟨rfl, rfl, by decide⟩
